import Mathlib

/-!
Verification of the local semantic + structural search core of the
robotu-molkit repository (`src/robotu_molkit/search/searcher.py` and the
fingerprint helper in `examples/search_caffeine_example.py`).

The Python code is shallowly embedded: metadata records are association
lists from field names to dynamically typed values, external services
(the embedding client, the FAISS vector index, PubChem name resolution,
the generative scaffold inferrer, the stdlib JSON and regex engines) are
environment parameters, Python exceptions are modelled by `Except Unit`,
and Python `float` scores are modelled by `ℚ`.
-/

/-- A Python value as stored in a metadata record or a filter condition:
`None`, a number (int/float collapsed to `ℚ`), a string, or a list of
integers (the sparse `ecfp` bit-index lists). -/
inductive Val where
  | vnone : Val
  | vnum (q : ℚ) : Val
  | vstr (s : String) : Val
  | vlist (l : List ℤ) : Val
deriving DecidableEq

/-- Python `==` between the embedded values: `None == None` is `True`,
numbers compare numerically, strings and lists structurally, and values
of different kinds compare unequal (no exception). -/
def pyEq : Val → Val → Bool
  | Val.vnone, Val.vnone => true
  | Val.vnum a, Val.vnum b => a == b
  | Val.vstr a, Val.vstr b => a == b
  | Val.vlist a, Val.vlist b => a == b
  | _, _ => false

/-- Python lexicographic `<` on lists of integers. -/
def intListLt : List ℤ → List ℤ → Bool
  | _, [] => false
  | [], _ :: _ => true
  | a :: as, b :: bs => if a < b then true else if b < a then false else intListLt as bs

/-- Python `<=` between embedded values: defined between two numbers, two
strings or two integer lists; any other combination (in particular `None`
against anything) raises `TypeError`, modelled as `.error ()`. -/
def pyLe : Val → Val → Except Unit Bool
  | Val.vnum a, Val.vnum b => .ok (decide (a ≤ b))
  | Val.vstr a, Val.vstr b => .ok (!decide (b < a))
  | Val.vlist a, Val.vlist b => .ok (intListLt a b || decide (a = b))
  | _, _ => .error ()

/-- Python chained comparison `lo <= v <= hi`: evaluates `lo <= v` first
and only evaluates `v <= hi` when the first comparison is `True`. -/
def chainedLe (lo v hi : Val) : Except Unit Bool :=
  match pyLe lo v with
  | .error e => .error e
  | .ok false => .ok false
  | .ok true => pyLe v hi

/-- A filter condition, the three shapes dispatched on by
`LocalSearch.query.passes`: a `tuple` (inclusive range), a `list`
(allowed values), or any other value (equality scalar). -/
inductive Cond where
  | range (lo hi : Val) : Cond
  | oneOf (vs : List Val) : Cond
  | scalar (v : Val) : Cond
deriving DecidableEq

/-- A metadata record: a Python dict, embedded as an association list
(first binding wins, as dict keys are unique). -/
abbrev MetaRecord : Type := List (String × Val)

/-- `meta.get(key)`: the stored value, or `None` when the key is absent. -/
def metaGet (meta : MetaRecord) (key : String) : Val :=
  match List.lookup key meta with
  | some v => v
  | none => Val.vnone

/-- `LocalSearch.query.passes`, translated clause by clause:
for each `(key, cond)` pair of the filter dict, `val = meta.get(key)`;
a tuple condition fails when `val is None` and otherwise evaluates the
chained comparison `cond[0] <= val <= cond[1]` (which can raise
`TypeError`); a list condition is `val in cond`; anything else is
`val != cond`.  The first failing condition returns `False`; an empty
filter returns `True`. -/
def passes : List (String × Cond) → MetaRecord → Except Unit Bool
  | [], _ => .ok true
  | (key, cond) :: rest, meta =>
    let val := metaGet meta key
    match cond with
    | Cond.range lo hi =>
      if val = Val.vnone then .ok false
      else
        match chainedLe lo val hi with
        | .error e => .error e
        | .ok true => passes rest meta
        | .ok false => .ok false
    | Cond.oneOf vs =>
      if vs.any (fun e => pyEq e val) then passes rest meta else .ok false
    | Cond.scalar c =>
      if pyEq val c then passes rest meta else .ok false

/-- Whether a condition is satisfied by the `None` that `meta.get`
returns for an absent field: never for a range (the `val is None` guard
fires first), for a list iff it contains `None`, for a scalar iff the
scalar is `None` (Python `None != None` is `False`). -/
def condAcceptsNone : Cond → Bool
  | Cond.range _ _ => false
  | Cond.oneOf vs => vs.any (fun e => pyEq e Val.vnone)
  | Cond.scalar c => pyEq Val.vnone c

/-- A Python list comprehension `[x for x in l if p(x)]` whose predicate
may raise: elements are tested left to right and the first exception
aborts the whole comprehension. -/
def filterE (p : α → Except Unit Bool) : List α → Except Unit (List α)
  | [] => .ok []
  | x :: xs =>
    match p x with
    | .error e => .error e
    | .ok b =>
      match filterE p xs with
      | .error e => .error e
      | .ok rest => .ok (if b then x :: rest else rest)

/-- Python slicing `l[:k]`: the first `k` elements for `k ≥ 0`; for
negative `k` the stop index is `max 0 (len l + k)`, so the last `-k`
elements are dropped. -/
def pySliceTo (k : Int) (l : List α) : List α :=
  if 0 ≤ k then l.take k.toNat else l.take (l.length - (-k).toNat)

/-- The external collaborators of `LocalSearch`: the embedding client
(`embed` returns `None` on service failure or empty result) and the
FAISS index (`search qvec k` returns the ranked `(metadata, score)`
candidates). -/
structure SearchEnv where
  embed : String → Option (List ℚ)
  search : List ℚ → Int → List (MetaRecord × ℚ)

/-- `LocalSearch.query`: embed the query text (`None` → return `[]`),
run the index search with `faiss_k`, and either return `hits[:top_k]`
when `not filters` (both `None` and the empty dict), or return
`[(m, s) for m, s in hits if passes(m)][:top_k]`. -/
def query (env : SearchEnv) (query_text : String) (top_k : Int)
    (filters : Option (List (String × Cond))) (faiss_k : Int) :
    Except Unit (List (MetaRecord × ℚ)) :=
  match env.embed query_text with
  | none => .ok []
  | some qvec =>
    let hits := env.search qvec faiss_k
    match filters with
    | none => .ok (pySliceTo top_k hits)
    | some fs =>
      if fs.isEmpty then .ok (pySliceTo top_k hits)
      else
        match filterE (fun h => passes fs h.1) hits with
        | .error e => .error e
        | .ok filtered => .ok (pySliceTo top_k filtered)

/-- `meta.get("ecfp", [])`: the stored sparse bit-index list, or `[]`
when absent (records store `ecfp` as a list of integer indices). -/
def metaEcfp (meta : MetaRecord) : List ℤ :=
  match List.lookup "ecfp" meta with
  | some (Val.vlist l) => l
  | _ => []

/-- `ExplicitBitVect(1024)` with `SetBit i` for each stored index `i`
with `0 <= i < 1024` (out-of-range indices silently ignored): the set of
set bits of the reconstructed fingerprint. -/
def bvFromEcfp (l : List ℤ) : Finset ℤ :=
  (l.filter (fun i => decide (0 ≤ i) && decide (i < 1024))).toFinset

/-- RDKit `DataStructs.TanimotoSimilarity`: `common / (|a| + |b| - common)`
with the number of common on-bits `common = |a ∩ b|`, returning `0.0`
when the denominator (the size of the union) is zero. -/
def tanimotoSimilarity (a b : Finset ℤ) : ℚ :=
  let common := (a ∩ b).card
  let total := a.card + b.card - common
  if total = 0 then 0 else (common : ℚ) / (total : ℚ)

/-- Python `max(sims) if sims else 0.0`. -/
def maxOr0 : List ℚ → ℚ
  | [] => 0
  | x :: xs => xs.foldl max x

/-- The per-candidate similarity of `query_with_tanimoto`: reconstruct
the candidate fingerprint from its `ecfp` field and take the maximum
Tanimoto similarity against the reference fingerprints (`0.0` when there
are no references). -/
def maxSimOf (refBvs : List (Finset ℤ)) (meta : MetaRecord) : ℚ :=
  maxOr0 (refBvs.map (fun r => tanimotoSimilarity (bvFromEcfp (metaEcfp meta)) r))

/-- The structural filtering loop of `query_with_tanimoto`: keep each
semantic candidate whose maximum similarity reaches `sim_threshold`,
annotated as `(meta, score, max_sim)`, in candidate order. -/
def tanimotoKept (refBvs : List (Finset ℤ)) (sim_threshold : ℚ)
    (raw : List (MetaRecord × ℚ)) : List (MetaRecord × ℚ × ℚ) :=
  raw.filterMap (fun h =>
    if sim_threshold ≤ maxSimOf refBvs h.1 then some (h.1, h.2, maxSimOf refBvs h.1)
    else none)

/-- Stable descending insertion by key: `x` is placed before the first
element whose key does not exceed `key x`, so among equal keys earlier
elements stay first. -/
def insertDesc (key : α → ℚ) (x : α) : List α → List α
  | [] => [x]
  | y :: ys => if key x < key y then y :: insertDesc key x ys else x :: y :: ys

/-- Python `list.sort(key=..., reverse=True)`: a stable sort by key,
descending.  Python's Timsort is stable, and a stable descending sort is
extensionally unique, so stable insertion sort models it exactly. -/
def sortDesc (key : α → ℚ) (l : List α) : List α :=
  l.foldr (insertDesc key) []

/-- `LocalSearch.query_with_tanimoto`: the reference fingerprints
`refBvs` are the output of the external scaffold-inference and PubChem
resolution pipeline (`extract_scaffolds_with_granite` followed by
`resolve_scaffolds_to_bitvectors`), passed as a parameter.  The body
runs the semantic query with `top_k=faiss_k`, keeps candidates by the
Tanimoto threshold, sorts the kept list stably by relevance score
descending (`results.sort(key=lambda x: x[1], reverse=True)`), and
returns `results[:top_k]`. -/
def query_with_tanimoto (env : SearchEnv) (query_text : String)
    (top_k faiss_k : Int) (filters : Option (List (String × Cond)))
    (sim_threshold : ℚ) (refBvs : List (Finset ℤ)) :
    Except Unit (List (MetaRecord × ℚ × ℚ)) :=
  match query env query_text faiss_k filters faiss_k with
  | .error e => .error e
  | .ok raw =>
    .ok (pySliceTo top_k (sortDesc (fun x => x.2.1) (tanimotoKept refBvs sim_threshold raw)))

/-- `tanimoto_bits` from `examples/search_caffeine_example.py`:
`np.bitwise_and(a, b).sum() / np.bitwise_or(a, b).sum()` on binary
vectors, with result `0.0` when the union count (a falsy `total`) is
zero. -/
def tanimoto_bits (a b : List Bool) : ℚ :=
  let common := (a.zipWith (fun x y => x && y) b).countP id
  let total := (a.zipWith (fun x y => x || y) b).countP id
  if total = 0 then 0 else (common : ℚ) / (total : ℚ)

/-- Spec-side `|a ∩ b|`: the number of bit positions set in both
vectors. -/
def interCount (a b : List Bool) : ℕ :=
  (List.range (max a.length b.length)).countP (fun i => a.getD i false && b.getD i false)

/-- Spec-side `|a ∪ b|`: the number of bit positions set in at least one
vector. -/
def unionCount (a b : List Bool) : ℕ :=
  (List.range (max a.length b.length)).countP (fun i => a.getD i false || b.getD i false)

/-- Python `str.strip()` on the character list: drop leading and
trailing whitespace. -/
def stripChars (l : List Char) : List Char :=
  ((l.dropWhile Char.isWhitespace).reverse.dropWhile Char.isWhitespace).reverse

/-- Python `s.strip()`. -/
def pyStrip (s : String) : String :=
  String.mk (stripChars s.data)

/-- A decoded JSON value, as far as `_extract_json_list` inspects it:
strings, lists, objects, and anything else (numbers, booleans, null)
collapsed to `jother`. -/
inductive JVal where
  | jstr (s : String) : JVal
  | jlist (l : List JVal) : JVal
  | jdict (entries : List (String × JVal)) : JVal
  | jother : JVal

/-- The list comprehension
`[s.strip() for s in vals if isinstance(s, str) and s.strip()]`:
keep the stripped form of each string entry whose stripped form is
non-empty (Python truthiness of `s.strip()`); non-string entries are
dropped. -/
def cleanStrings (vs : List JVal) : List String :=
  vs.filterMap (fun v =>
    match v with
    | JVal.jstr s => if pyStrip s = "" then none else some (pyStrip s)
    | _ => none)

/-- The `try` block of `_extract_json_list`: strict
`json.JSONDecoder().raw_decode`, then `obj.get(key)` and the
`isinstance(vals, list)` check.  `some` means the block executed a
`return`; `none` covers every fall-through: decode failure
(`JSONDecodeError`, caught), a non-dict object (whose `.get` raises
`AttributeError`, caught), a missing key (`vals` is `None`), or a
non-list value. -/
def extractStage1 (rawDecode : String → Option JVal)
    (txt key : String) : Option (List String) :=
  match rawDecode txt with
  | some (JVal.jdict entries) =>
    match List.lookup key entries with
    | some (JVal.jlist vs) => some (cleanStrings vs)
    | _ => none
  | _ => none

/-- The regex fallback of `_extract_json_list`: on a regex match,
`json.loads` the block, take `obj.get(key, [])` and return the cleaned
strings when it is a list; every failure path (no match, loads failure,
non-dict object, non-list value) ends in the final `return []`.  A
missing key takes the `[]` default, which is a list, so the comprehension
over it returns `[]`. -/
def extractStage2 (regexSearch : String → Option String)
    (loads : String → Option JVal) (txt key : String) : List String :=
  match regexSearch txt with
  | some block =>
    match loads block with
    | some (JVal.jdict entries) =>
      match List.lookup key entries with
      | some (JVal.jlist vs) => cleanStrings vs
      | some _ => []
      | none => cleanStrings []
    | _ => []
  | none => []

/-- `QueryRefiner._extract_json_list`, with the three stdlib calls it
makes passed as environment parameters: `rawDecode` is
`json.JSONDecoder().raw_decode` (`none` = `JSONDecodeError`),
`regexSearch` is the bounded brace-block regex search (`none` = no
match, `some block` = the matched text), and `loads` is `json.loads` on
the block: the strict stage's `return`, else the fallback stage. -/
def extract_json_list (rawDecode : String → Option JVal)
    (regexSearch : String → Option String) (loads : String → Option JVal)
    (txt key : String) : List String :=
  match extractStage1 rawDecode txt key with
  | some r => r
  | none => extractStage2 regexSearch loads txt key

/-! ### Concrete fixtures used by witnesses and counterexamples -/

/-- A two-field metadata record with `cid = 1`. -/
def recA : MetaRecord := [("cid", Val.vnum 1)]

/-- A two-field metadata record with `cid = 2`. -/
def recB : MetaRecord := [("cid", Val.vnum 2)]

/-- A concrete environment: embedding always succeeds and the index
returns two candidates with scores `2` and `1`. -/
def envA : SearchEnv :=
  { embed := fun _ => some [1]
    search := fun _ _ => [(recA, 2), (recB, 1)] }

/-- A concrete environment whose embedding client always fails
(returns `None`). -/
def envNoEmbed : SearchEnv :=
  { embed := fun _ => none
    search := fun _ _ => [(recA, 2), (recB, 1)] }

/-- A decode oracle that always fails. -/
def rdNone : String → Option JVal := fun _ => none

/-- A regex oracle that never matches. -/
def reNone : String → Option String := fun _ => none

/-- A loads oracle that always fails. -/
def ldNone : String → Option JVal := fun _ => none

/-! ### General lemmas about the embedded Python primitives -/

/-- Slicing the empty list yields the empty list. -/
theorem pySliceTo_nil (k : Int) : pySliceTo k ([] : List α) = [] := by
  unfold pySliceTo
  split <;> simp

/-- For a non-negative bound, `l[:k]` is `l.take k.toNat`. -/
theorem pySliceTo_of_nonneg {k : Int} (hk : 0 ≤ k) (l : List α) :
    pySliceTo k l = l.take k.toNat := by
  unfold pySliceTo
  rw [if_pos hk]

/-- A slice `l[:k]` is always an order-preserving subsequence of `l`. -/
theorem pySliceTo_sublist (k : Int) (l : List α) : List.Sublist (pySliceTo k l) l := by
  unfold pySliceTo
  split <;> exact List.take_sublist _ _

/-- For a non-negative bound, `l[:k]` has at most `k` elements. -/
theorem pySliceTo_length_le {k : Int} (hk : 0 ≤ k) (l : List α) :
    (pySliceTo k l).length ≤ k.toNat := by
  rw [pySliceTo_of_nonneg hk]
  exact List.length_take_le _ _

/-- A comprehension that completes normally returns an order-preserving
subsequence of its input. -/
theorem filterE_sublist {p : α → Except Unit Bool} :
    ∀ {l r : List α}, filterE p l = .ok r → List.Sublist r l := by
  intro l
  induction l with
  | nil =>
    intro r h
    unfold filterE at h
    cases h
    exact List.Sublist.refl _
  | cons x xs ih =>
    intro r h
    unfold filterE at h
    cases hpx : p x with
    | error e => rw [hpx] at h; cases h
    | ok b =>
      rw [hpx] at h
      cases hrest : filterE p xs with
      | error e => rw [hrest] at h; cases h
      | ok rest =>
        rw [hrest] at h
        injection h with h2
        subst h2
        cases b with
        | true => simpa using List.Sublist.cons₂ x (ih hrest)
        | false => simpa using List.Sublist.cons x (ih hrest)

/-! ### C3: embedding failure degrades to the empty result -/

/-- C3: for every call to `query` (Modes A/B), if the embedding client
returns `None` for the query text, `query` returns the empty list — a
recoverable no-results outcome, not a raised error. -/
theorem c3_embed_none_returns_empty (env : SearchEnv) (qt : String)
    (top_k : Int) (filters : Option (List (String × Cond))) (faiss_k : Int)
    (he : env.embed qt = none) :
    query env qt top_k filters faiss_k = .ok [] := by
  unfold query
  rw [he]

/-- Witness for C3 at a concrete failing-embedding environment. -/
theorem c3_witness : query envNoEmbed "q" 3 none 5 = .ok [] :=
  c3_embed_none_returns_empty envNoEmbed "q" 3 none 5 rfl

/-! ### C5: the empty filter passes everything and Mode B with an empty
filter coincides with Mode A -/

/-- C5: the filter predicate with an empty filter expression returns
`True` for every record, and `query` called with an empty filter dict
returns exactly what `query` with no filter returns, for every query
text, `top_k` and `faiss_k`. -/
theorem c5_empty_filter :
    (∀ meta : MetaRecord, passes [] meta = .ok true) ∧
    (∀ (env : SearchEnv) (qt : String) (top_k faiss_k : Int),
      query env qt top_k (some []) faiss_k = query env qt top_k none faiss_k) := by
  refine ⟨fun meta => rfl, fun env qt top_k faiss_k => ?_⟩
  unfold query
  cases env.embed qt <;> simp

/-! ### C2: non-positive `top_k` does not raise InvalidArgument -/

/-- Counterexample to C2: a `query` call with `top_k = 0` returns the
empty result list instead of failing with an InvalidArgument error. -/
theorem c2_counterexample : query envA "q" 0 none 100 = .ok [] := rfl

/-- C2 (amended): no `k`-validation exists at the `LocalSearch` level.
A call with non-positive `top_k` and a successful embedding returns the
result list `hits[:top_k]` — the empty list for `top_k = 0` (negative
`top_k` drops the last `|top_k|` candidates by Python slicing). -/
theorem c2_nonpositive_topk_returns_list (env : SearchEnv) (qt : String)
    (faiss_k top_k : Int) (qvec : List ℚ)
    (hk : top_k ≤ 0) (he : env.embed qt = some qvec) :
    query env qt top_k none faiss_k = .ok (pySliceTo top_k (env.search qvec faiss_k)) ∧
    (top_k = 0 → query env qt top_k none faiss_k = .ok []) := by
  constructor
  · unfold query
    rw [he]
  · rintro rfl
    unfold query
    rw [he]
    simp [pySliceTo]

/-- Witness for C2 (amended) at a concrete environment with `top_k = 0`. -/
theorem c2_witness : query envA "q" 0 none 2 = .ok [] :=
  (c2_nonpositive_topk_returns_list envA "q" 2 0 [1] (by decide) rfl).2 rfl

/-! ### C4: missing fields and filters -/

/-- If a conjunction of filter conditions evaluates to `True`, so does
its tail. -/
theorem passes_tail_of_true {k : String} {c : Cond} {rest : List (String × Cond)}
    {meta : MetaRecord} (h : passes ((k, c) :: rest) meta = .ok true) :
    passes rest meta = .ok true := by
  unfold passes at h
  cases c with
  | range lo hi =>
    dsimp only at h
    by_cases hv : metaGet meta k = Val.vnone
    · rw [if_pos hv] at h; simp at h
    · rw [if_neg hv] at h
      cases hcl : chainedLe lo (metaGet meta k) hi with
      | error e => rw [hcl] at h; simp at h
      | ok b =>
        rw [hcl] at h
        cases b with
        | true => exact h
        | false => simp at h
  | oneOf vs =>
    dsimp only at h
    by_cases hm : vs.any (fun e => pyEq e (metaGet meta k)) = true
    · rw [if_pos hm] at h; exact h
    · rw [if_neg hm] at h; simp at h
  | scalar cv =>
    dsimp only at h
    by_cases hm : pyEq (metaGet meta k) cv = true
    · rw [if_pos hm] at h; exact h
    · rw [if_neg hm] at h; simp at h

/-- Counterexample to C4: the filter `{"mw": None}` is a filter mapping
a field name to an equality scalar, yet a record with no `mw` field
passes it: the lookup of the absent field yields `None` and the
condition `val != cond` compares `None != None`, which is `False`. -/
theorem c4_counterexample :
    passes [("mw", Cond.scalar Val.vnone)] [] = .ok true := rfl

/-- C4 (amended): an absent field fails a filter whenever its condition
does not itself accept `None` — every range condition, any list without
`None`, any non-`None` scalar; the filter then never evaluates to
`True`.  (When the condition is `None` itself, or a list containing
`None`, the absent field passes, since `meta.get` returns `None`.)  In
particular a record with no `mw` field always fails the range filter
`{"mw": (0, 250)}`. -/
theorem c4_missing_field_amended :
    (∀ (fs : List (String × Cond)) (meta : MetaRecord) (key : String) (cond : Cond),
      (key, cond) ∈ fs → List.lookup key meta = none →
      condAcceptsNone cond = false → passes fs meta ≠ .ok true) ∧
    (∀ meta : MetaRecord, List.lookup "mw" meta = none →
      passes [("mw", Cond.range (Val.vnum 0) (Val.vnum 250))] meta = .ok false) := by
  constructor
  · intro fs
    induction fs with
    | nil =>
      intro meta key cond hmem
      simp at hmem
    | cons hd tl ih =>
      obtain ⟨k0, c0⟩ := hd
      intro meta key cond hmem hlook hacc hpass
      rcases List.mem_cons.mp hmem with heq | hmem'
      · obtain ⟨hk, hc⟩ := Prod.mk.injEq .. ▸ heq
        subst hk
        subst hc
        have hv : metaGet meta key = Val.vnone := by
          unfold metaGet
          rw [hlook]
        cases cond with
        | range lo hi =>
          unfold passes at hpass
          dsimp only at hpass
          rw [if_pos hv] at hpass
          simp at hpass
        | oneOf vs =>
          unfold passes at hpass
          dsimp only at hpass
          simp only [hv] at hpass
          rw [show vs.any (fun e => pyEq e Val.vnone) = false from hacc] at hpass
          simp at hpass
        | scalar cv =>
          unfold passes at hpass
          dsimp only at hpass
          simp only [hv] at hpass
          rw [show pyEq Val.vnone cv = false from hacc] at hpass
          simp at hpass
      · exact ih meta key cond hmem' hlook hacc (passes_tail_of_true hpass)
  · intro meta hlook
    have hv : metaGet meta "mw" = Val.vnone := by
      unfold metaGet
      rw [hlook]
    unfold passes
    dsimp only
    rw [if_pos hv]

/-- Witness for C4 (amended) at the empty record. -/
theorem c4_witness :
    passes [("mw", Cond.range (Val.vnum 0) (Val.vnum 250))] [] = .ok false :=
  c4_missing_field_amended.2 [] rfl

/-! ### C6: query output is a bounded, order-preserving subsequence -/

/-- C6: for every successful `query` call (embedding available) with
`top_k ≥ 0`, the returned list has at most `top_k` pairs and is an
order-preserving subsequence of the candidate list produced by the
vector index search with `faiss_k`: filtering only removes elements and
never re-orders them, and the final step truncates to the first `top_k`
survivors. -/
theorem c6_query_subsequence (env : SearchEnv) (qt : String) (top_k : Int)
    (filters : Option (List (String × Cond))) (faiss_k : Int)
    (qvec : List ℚ) (out : List (MetaRecord × ℚ))
    (htop : 0 ≤ top_k) (he : env.embed qt = some qvec)
    (hout : query env qt top_k filters faiss_k = .ok out) :
    out.length ≤ top_k.toNat ∧ List.Sublist out (env.search qvec faiss_k) := by
  unfold query at hout
  rw [he] at hout
  dsimp only at hout
  cases filters with
  | none =>
    injection hout with hout
    subst hout
    exact ⟨pySliceTo_length_le htop _, pySliceTo_sublist _ _⟩
  | some fs =>
    dsimp only at hout
    by_cases hfs : fs.isEmpty
    · rw [if_pos hfs] at hout
      injection hout with hout
      subst hout
      exact ⟨pySliceTo_length_le htop _, pySliceTo_sublist _ _⟩
    · rw [if_neg hfs] at hout
      cases hflt : filterE (fun h => passes fs h.1) (env.search qvec faiss_k) with
      | error e => rw [hflt] at hout; cases hout
      | ok filtered =>
        rw [hflt] at hout
        injection hout with hout
        subst hout
        exact ⟨pySliceTo_length_le htop _,
          List.Sublist.trans (pySliceTo_sublist _ _) (filterE_sublist hflt)⟩

/-- Witness for C6: a Mode-A call truncating two candidates to one. -/
theorem c6_witness :
    ([(recA, (2 : ℚ))] : List (MetaRecord × ℚ)).length ≤ (1 : Int).toNat ∧
    List.Sublist [(recA, (2 : ℚ))] (envA.search [1] 2) :=
  c6_query_subsequence envA "q" 1 none 2 [1] [(recA, 2)] (by decide) rfl rfl

/-! ### Lemmas about the stable descending sort -/

/-- Unfolding lemma for `sortDesc`. -/
theorem sortDesc_cons (key : α → ℚ) (a : α) (l : List α) :
    sortDesc key (a :: l) = insertDesc key a (sortDesc key l) := rfl

/-- Membership in an insertion. -/
theorem mem_insertDesc {key : α → ℚ} {x a : α} :
    ∀ {l : List α}, x ∈ insertDesc key a l ↔ x = a ∨ x ∈ l := by
  intro l
  induction l with
  | nil => simp [insertDesc]
  | cons y ys ih =>
    unfold insertDesc
    split
    · simp only [List.mem_cons, ih]
      tauto
    · simp only [List.mem_cons]

/-- The sort is a permutation as far as membership is concerned. -/
theorem mem_sortDesc {key : α → ℚ} {x : α} :
    ∀ {l : List α}, x ∈ sortDesc key l ↔ x ∈ l := by
  intro l
  induction l with
  | nil => simp [sortDesc]
  | cons y ys ih =>
    rw [sortDesc_cons, mem_insertDesc]
    simp [ih]

/-- Insertion preserves the length. -/
theorem length_insertDesc (key : α → ℚ) (a : α) :
    ∀ l : List α, (insertDesc key a l).length = l.length + 1 := by
  intro l
  induction l with
  | nil => rfl
  | cons y ys ih =>
    unfold insertDesc
    split
    · simp [ih]
    · simp

/-- The sort preserves the length. -/
theorem length_sortDesc (key : α → ℚ) :
    ∀ l : List α, (sortDesc key l).length = l.length := by
  intro l
  induction l with
  | nil => rfl
  | cons y ys ih =>
    rw [sortDesc_cons, length_insertDesc, ih, List.length_cons]

/-- Insertion preserves descending-sortedness by the key. -/
theorem pairwise_insertDesc {key : α → ℚ} {a : α} :
    ∀ {l : List α}, l.Pairwise (fun u v => key v ≤ key u) →
      (insertDesc key a l).Pairwise (fun u v => key v ≤ key u) := by
  intro l
  induction l with
  | nil =>
    intro _
    simp [insertDesc]
  | cons y ys ih =>
    intro h
    rw [List.pairwise_cons] at h
    obtain ⟨hy, hys⟩ := h
    unfold insertDesc
    split
    · rename_i hlt
      rw [List.pairwise_cons]
      refine ⟨?_, ih hys⟩
      intro z hz
      rcases mem_insertDesc.mp hz with rfl | hz'
      · exact le_of_lt hlt
      · exact hy z hz'
    · rename_i hnlt
      rw [List.pairwise_cons]
      refine ⟨?_, List.pairwise_cons.mpr ⟨hy, hys⟩⟩
      intro z hz
      rcases List.mem_cons.mp hz with rfl | hz'
      · exact le_of_not_lt hnlt
      · exact le_trans (hy z hz') (le_of_not_lt hnlt)

/-- The sorted list is descending in the key. -/
theorem pairwise_sortDesc (key : α → ℚ) :
    ∀ l : List α, (sortDesc key l).Pairwise (fun u v => key v ≤ key u) := by
  intro l
  induction l with
  | nil => simp [sortDesc]
  | cons y ys ih =>
    rw [sortDesc_cons]
    exact pairwise_insertDesc ih

/-- Filtering by one key value commutes with insertion: elements hopped
over by the inserted element have strictly larger keys, so they never
share its key value. -/
theorem filter_insertDesc (key : α → ℚ) (a : α) (q : ℚ) :
    ∀ l : List α,
      (insertDesc key a l).filter (fun x => key x == q) =
        if key a == q then a :: l.filter (fun x => key x == q)
        else l.filter (fun x => key x == q) := by
  intro l
  induction l with
  | nil =>
    unfold insertDesc
    rw [List.filter_cons]
  | cons y ys ih =>
    unfold insertDesc
    split
    · rename_i hlt
      rw [List.filter_cons, ih, List.filter_cons]
      by_cases ha : key a = q
      · have hy : (key y == q) = false := by
          rw [beq_eq_false_iff_ne]
          intro hyq
          rw [ha] at hlt
          rw [hyq] at hlt
          exact lt_irrefl q hlt
        simp [ha, hy]
      · have ha' : (key a == q) = false := by
          rw [beq_eq_false_iff_ne]
          exact ha
        simp [ha']
    · rw [List.filter_cons]

/-- Filtering the stably sorted list by one key value returns exactly
the equal-key elements in their original order. -/
theorem filter_sortDesc (key : α → ℚ) (q : ℚ) :
    ∀ l : List α,
      (sortDesc key l).filter (fun x => key x == q) =
        l.filter (fun x => key x == q) := by
  intro l
  induction l with
  | nil => rfl
  | cons y ys ih =>
    rw [sortDesc_cons, filter_insertDesc, List.filter_cons, ih]

/-- Filtering a front slice of a list produces the filtered list up to
some tail: `(l.take n).filter p ++ t = l.filter p` for a suitable `t`. -/
theorem filter_take_front (p : α → Bool) (n : ℕ) (l : List α) :
    ∃ t, (l.take n).filter p ++ t = l.filter p :=
  ⟨(l.drop n).filter p, by rw [← List.filter_append, List.take_append_drop]⟩

/-! ### C1 and C10: the fail-closed gate of Mode C -/

/-- Counterexample to C1: a `query_with_tanimoto` call that resolves
zero reference fingerprints but uses `sim_threshold = 0` keeps every
semantic candidate (each with similarity `0.0`) and returns a non-empty
list, not the empty one. -/
theorem c1_counterexample :
    query_with_tanimoto envA "q" 1 2 none 0 [] ≠ .ok [] := by
  rw [show query_with_tanimoto envA "q" 1 2 none 0 [] = .ok [(recA, 2, 0)] from rfl]
  intro h
  simp at h

/-- C1 (amended): for every `query_with_tanimoto` call with a positive
`sim_threshold` in which zero reference fingerprints are resolved, the
call returns the empty result list, even if the semantic stage produced
hits: every candidate has maximum similarity `0.0 < sim_threshold`. -/
theorem c1_gate_requires_positive_threshold (env : SearchEnv) (qt : String)
    (top_k faiss_k : Int) (filters : Option (List (String × Cond)))
    (sim_threshold : ℚ) (raw : List (MetaRecord × ℚ))
    (hpos : 0 < sim_threshold)
    (hraw : query env qt faiss_k filters faiss_k = .ok raw) :
    query_with_tanimoto env qt top_k faiss_k filters sim_threshold [] = .ok [] := by
  unfold query_with_tanimoto
  rw [hraw]
  dsimp only
  have hkept : tanimotoKept [] sim_threshold raw = [] := by
    unfold tanimotoKept
    apply List.filterMap_eq_nil_iff.mpr
    intro a _
    rw [show maxSimOf [] a.1 = 0 from rfl]
    rw [if_neg (not_le.mpr hpos)]
  rw [hkept]
  rw [show sortDesc (fun x => x.2.1) ([] : List (MetaRecord × ℚ × ℚ)) = [] from rfl]
  rw [pySliceTo_nil]

/-- Witness for C1 (amended): threshold `1`, zero references, non-empty
semantic stage, empty output. -/
theorem c1_witness : query_with_tanimoto envA "q" 1 2 none 1 [] = .ok [] :=
  c1_gate_requires_positive_threshold envA "q" 1 2 none 1
    [(recA, 2), (recB, 1)] one_pos rfl

/-- C10: the fail-closed gate is enforced only through the threshold
comparison — with zero references every candidate's similarity is the
`max` of an empty list, `0.0`.  Hence with `sim_threshold ≤ 0` every
semantic candidate is kept, annotated with similarity `0.0`; the call
returns the sorted truncation of that full list, which is non-empty
whenever `top_k ≥ 1` and the semantic stage was non-empty. -/
theorem c10_threshold_only_gate (env : SearchEnv) (qt : String)
    (top_k faiss_k : Int) (filters : Option (List (String × Cond)))
    (sim_threshold : ℚ) (raw : List (MetaRecord × ℚ))
    (hnp : sim_threshold ≤ 0)
    (hraw : query env qt faiss_k filters faiss_k = .ok raw) :
    tanimotoKept [] sim_threshold raw = raw.map (fun h => (h.1, h.2, (0 : ℚ))) ∧
    query_with_tanimoto env qt top_k faiss_k filters sim_threshold [] =
      .ok (pySliceTo top_k (sortDesc (fun x => x.2.1)
        (raw.map (fun h => (h.1, h.2, (0 : ℚ)))))) ∧
    (1 ≤ top_k → raw ≠ [] →
      query_with_tanimoto env qt top_k faiss_k filters sim_threshold [] ≠ .ok []) := by
  have hgen : ∀ t : List (MetaRecord × ℚ),
      tanimotoKept [] sim_threshold t = t.map (fun h => (h.1, h.2, (0 : ℚ))) := by
    intro t
    unfold tanimotoKept
    induction t with
    | nil => rfl
    | cons h t ih =>
      rw [List.filterMap_cons, List.map_cons]
      rw [show maxSimOf [] h.1 = 0 from rfl]
      rw [if_pos hnp, ih]
  refine ⟨hgen raw, ?_, ?_⟩
  · unfold query_with_tanimoto
    rw [hraw]
    dsimp only
    rw [hgen raw]
  · intro htop hne hcontra
    unfold query_with_tanimoto at hcontra
    rw [hraw] at hcontra
    dsimp only at hcontra
    rw [hgen raw] at hcontra
    injection hcontra with hc
    have hlen := congrArg List.length hc
    rw [pySliceTo_of_nonneg (le_trans (by norm_num) htop)] at hlen
    simp only [List.length_nil] at hlen
    rw [List.length_take, length_sortDesc, List.length_map] at hlen
    rcases Nat.min_eq_zero_iff.mp hlen with h1 | h2
    · omega
    · exact hne (List.length_eq_zero.mp h2)

/-- Witness for C10: `sim_threshold = 0`, zero references, two semantic
candidates, `top_k = 2` — the call does not return the empty list. -/
theorem c10_witness : query_with_tanimoto envA "q" 2 2 none 0 [] ≠ .ok [] :=
  (c10_threshold_only_gate envA "q" 2 2 none 0 [(recA, 2), (recB, 1)]
    le_rfl rfl).2.2 (by decide) (by simp)

/-! ### C7: the structure-refinement pipeline -/

/-- C7: in every completed `query_with_tanimoto` call with `top_k ≥ 0`
over semantic candidates `raw`, (i) every output triple is a semantic
candidate annotated with its maximum Tanimoto similarity, which reaches
`sim_threshold`; (ii) a candidate enters the kept set exactly when its
maximum similarity reaches `sim_threshold`, carrying that maximum as its
`similarity_score`; (iii) the output is ordered by `relevance_score`
descending; (iv) it is stable: restricted to any one relevance score the
output is a front segment of the kept set in candidate order — ties are
never re-ordered by `similarity_score`; and (v) it holds at most `top_k`
triples. -/
theorem c7_tanimoto_pipeline (env : SearchEnv) (qt : String)
    (top_k faiss_k : Int) (filters : Option (List (String × Cond)))
    (sim_threshold : ℚ) (refBvs : List (Finset ℤ))
    (raw : List (MetaRecord × ℚ)) (out : List (MetaRecord × ℚ × ℚ))
    (htop : 0 ≤ top_k)
    (hraw : query env qt faiss_k filters faiss_k = .ok raw)
    (hout : query_with_tanimoto env qt top_k faiss_k filters sim_threshold refBvs
      = .ok out) :
    (∀ m s t, (m, s, t) ∈ out →
      (m, s) ∈ raw ∧ t = maxSimOf refBvs m ∧ sim_threshold ≤ t) ∧
    (∀ m s, (m, s) ∈ raw →
      (sim_threshold ≤ maxSimOf refBvs m ↔
        (m, s, maxSimOf refBvs m) ∈ tanimotoKept refBvs sim_threshold raw)) ∧
    out.Pairwise (fun x y => y.2.1 ≤ x.2.1) ∧
    (∀ q : ℚ, ∃ rest, out.filter (fun x => x.2.1 == q) ++ rest =
      (tanimotoKept refBvs sim_threshold raw).filter (fun x => x.2.1 == q)) ∧
    out.length ≤ top_k.toNat := by
  unfold query_with_tanimoto at hout
  rw [hraw] at hout
  dsimp only at hout
  injection hout with hout
  subst hout
  refine ⟨?_, ?_, ?_, ?_, ?_⟩
  · intro m s t hmem
    rw [pySliceTo_of_nonneg htop] at hmem
    have h1 := List.mem_of_mem_take hmem
    have h2 := mem_sortDesc.mp h1
    unfold tanimotoKept at h2
    obtain ⟨a, ha, hfa⟩ := List.mem_filterMap.mp h2
    by_cases hc : sim_threshold ≤ maxSimOf refBvs a.1
    · rw [if_pos hc] at hfa
      have heq : (a.1, a.2, maxSimOf refBvs a.1) = (m, s, t) := Option.some.inj hfa
      have hm : a.1 = m := congrArg (fun p => p.1) heq
      have hs : a.2 = s := congrArg (fun p => p.2.1) heq
      have ht : maxSimOf refBvs a.1 = t := congrArg (fun p => p.2.2) heq
      subst hm
      subst hs
      subst ht
      exact ⟨by simpa using ha, rfl, hc⟩
    · rw [if_neg hc] at hfa
      cases hfa
  · intro m s hmem
    constructor
    · intro hth
      apply List.mem_filterMap.mpr
      exact ⟨(m, s), hmem, by rw [if_pos hth]⟩
    · intro hmem2
      obtain ⟨a, ha, hfa⟩ := List.mem_filterMap.mp hmem2
      by_cases hc : sim_threshold ≤ maxSimOf refBvs a.1
      · rw [if_pos hc] at hfa
        have heq : (a.1, a.2, maxSimOf refBvs a.1) = (m, s, maxSimOf refBvs m) :=
          Option.some.inj hfa
        have hm : a.1 = m := congrArg (fun p => p.1) heq
        rw [hm] at hc
        exact hc
      · rw [if_neg hc] at hfa
        cases hfa
  · rw [pySliceTo_of_nonneg htop]
    exact List.Pairwise.sublist (List.take_sublist _ _)
      (pairwise_sortDesc _ (tanimotoKept refBvs sim_threshold raw))
  · intro q
    rw [pySliceTo_of_nonneg htop]
    obtain ⟨t0, ht0⟩ := filter_take_front (fun x => x.2.1 == q) top_k.toNat
      (sortDesc (fun x => x.2.1) (tanimotoKept refBvs sim_threshold raw))
    refine ⟨t0, ?_⟩
    rw [ht0]
    exact filter_sortDesc (fun x => x.2.1) q (tanimotoKept refBvs sim_threshold raw)
  · exact pySliceTo_length_le htop _

/-- Witness for C7 (the truncation bound, conjunct (v), at a concrete
call): two semantic candidates, zero references, threshold `0`,
`top_k = 1`, output `[(recA, 2, 0)]`. -/
theorem c7_witness :
    ([(recA, (2 : ℚ), (0 : ℚ))] : List (MetaRecord × ℚ × ℚ)).length ≤ (1 : Int).toNat :=
  (c7_tanimoto_pipeline envA "q" 1 2 none 0 [] [(recA, 2), (recB, 1)]
    [(recA, 2, 0)] (by decide) rfl rfl).2.2.2.2

/-! ### C8: `tanimoto_bits` computes `|a ∩ b| / |a ∪ b|` -/

/-- Counting true entries of a pointwise combination equals counting the
bit positions where the combination of the two vectors holds. -/
theorem zipWith_countP_eq (f : Bool → Bool → Bool) :
    ∀ (a b : List Bool), a.length = b.length →
      (a.zipWith f b).countP id =
        (List.range a.length).countP (fun i => f (a.getD i false) (b.getD i false)) := by
  intro a
  induction a with
  | nil =>
    intro b h
    cases b with
    | nil => rfl
    | cons y ys => simp at h
  | cons x xs ih =>
    intro b h
    cases b with
    | nil => simp at h
    | cons y ys =>
      have hn : xs.length = ys.length := by
        simpa using h
      rw [List.zipWith_cons_cons, List.countP_cons]
      rw [List.length_cons, List.range_succ_eq_map, List.countP_cons, List.countP_map]
      have hg : ((fun i => f ((x :: xs).getD i false) ((y :: ys).getD i false)) ∘ Nat.succ)
          = fun i => f (xs.getD i false) (ys.getD i false) := by
        funext i
        rfl
      rw [hg, ih ys hn]
      rfl

/-- Combining a vector with itself by an idempotent operation leaves the
true-count unchanged. -/
theorem zipWith_self_countP (g : Bool → Bool → Bool) (hg : ∀ x, g x x = x) :
    ∀ l : List Bool, (l.zipWith g l).countP id = l.countP id := by
  intro l
  induction l with
  | nil => rfl
  | cons x xs ih =>
    rw [List.zipWith_cons_cons, List.countP_cons, List.countP_cons, hg, ih]

/-- C8: for equal-length binary fingerprint vectors, `tanimoto_bits a b`
is `|a ∩ b| / |a ∪ b|` over set-bit positions, defined as `0.0` when the
union is empty instead of a division-by-zero error; in particular the
all-zero vectors give `0.0` and any non-all-zero `a` gives
`tanimoto_bits a a = 1.0`. -/
theorem c8_tanimoto_bits_correct (a b : List Bool) (n : ℕ)
    (h : a.length = b.length) :
    tanimoto_bits a b =
      (if unionCount a b = 0 then 0
       else (interCount a b : ℚ) / (unionCount a b : ℚ)) ∧
    tanimoto_bits (List.replicate n false) (List.replicate n false) = 0 ∧
    (a.any id = true → tanimoto_bits a a = 1) := by
  have hmax : max a.length b.length = a.length := by
    rw [h, max_self]
  have hinter : interCount a b = (a.zipWith (fun x y => x && y) b).countP id := by
    unfold interCount
    rw [hmax]
    exact (zipWith_countP_eq (fun x y => x && y) a b h).symm
  have hunion : unionCount a b = (a.zipWith (fun x y => x || y) b).countP id := by
    unfold unionCount
    rw [hmax]
    exact (zipWith_countP_eq (fun x y => x || y) a b h).symm
  refine ⟨?_, ?_, ?_⟩
  · unfold tanimoto_bits
    rw [hinter, hunion]
  · have hz : ((List.replicate n false).zipWith (fun x y => x || y)
        (List.replicate n false)).countP id = 0 := by
      induction n with
      | zero => rfl
      | succ k ihk =>
        rw [List.replicate_succ, List.zipWith_cons_cons, List.countP_cons]
        simp [ihk]
    simp [tanimoto_bits, hz]
  · intro hany
    unfold tanimoto_bits
    rw [zipWith_self_countP (fun x y => x && y) (fun x => Bool.and_self x) a]
    rw [zipWith_self_countP (fun x y => x || y) (fun x => Bool.or_self x) a]
    have hpos : 0 < a.countP id := by
      apply List.countP_pos_iff.mpr
      obtain ⟨x, hx, hpx⟩ := List.any_eq_true.mp hany
      exact ⟨x, hx, hpx⟩
    rw [if_neg (Nat.pos_iff_ne_zero.mp hpos)]
    exact div_self (Nat.cast_ne_zero.mpr (Nat.pos_iff_ne_zero.mp hpos))

/-- Witness for C8 (conjunct (i)) at the one-bit vectors `[true]`. -/
theorem c8_witness :
    tanimoto_bits [true] [true] =
      (if unionCount [true] [true] = 0 then 0
       else (interCount [true] [true] : ℚ) / (unionCount [true] [true] : ℚ)) :=
  (c8_tanimoto_bits_correct [true] [true] 0 rfl).1

/-! ### C9: tolerant two-stage parsing -/

/-- Dropping a while-prefix twice is the same as dropping it once. -/
theorem dropWhile_idem (p : α → Bool) :
    ∀ l : List α, (l.dropWhile p).dropWhile p = l.dropWhile p := by
  intro l
  induction l with
  | nil => rfl
  | cons x xs ih =>
    rw [List.dropWhile_cons]
    split
    · exact ih
    · rename_i hpx
      rw [List.dropWhile_cons, if_neg hpx]

/-- If a list is already left-stripped, right-stripping it (via reverse)
leaves it left-stripped. -/
theorem dropWhile_rev_strip_fix (p : α → Bool) (m : List α)
    (hm : m.dropWhile p = m) :
    ((m.reverse.dropWhile p).reverse).dropWhile p
      = (m.reverse.dropWhile p).reverse := by
  cases m with
  | nil => rfl
  | cons c t =>
    have hc : ¬ p c = true := by
      intro hcc
      rw [List.dropWhile_cons, if_pos hcc] at hm
      have hlen := congrArg List.length hm
      have hle := (List.dropWhile_sublist (l := t) p).length_le
      rw [List.length_cons] at hlen
      omega
    rw [List.reverse_cons, List.dropWhile_append]
    by_cases he : (List.dropWhile p t.reverse).isEmpty
    · rw [if_pos he]
      simp [List.dropWhile_cons, hc]
    · rw [if_neg he]
      rw [List.reverse_append, List.reverse_cons, List.reverse_nil, List.nil_append]
      simp [List.dropWhile_cons, hc]

/-- `stripChars` is idempotent: a stripped string strips to itself. -/
theorem stripChars_idem (l : List Char) :
    stripChars (stripChars l) = stripChars l := by
  unfold stripChars
  rw [dropWhile_rev_strip_fix Char.isWhitespace (l.dropWhile Char.isWhitespace)
    (dropWhile_idem Char.isWhitespace l)]
  rw [List.reverse_reverse]
  rw [dropWhile_idem Char.isWhitespace (l.dropWhile Char.isWhitespace).reverse]

/-- `pyStrip` is idempotent. -/
theorem pyStrip_idem (s : String) : pyStrip (pyStrip s) = pyStrip s := by
  unfold pyStrip
  rw [show (String.mk (stripChars s.data)).data = stripChars s.data from rfl]
  rw [stripChars_idem]

/-- Every string produced by the cleaning comprehension is non-empty and
whitespace-stripped. -/
theorem mem_cleanStrings {s : String} {vs : List JVal}
    (h : s ∈ cleanStrings vs) : s ≠ "" ∧ pyStrip s = s := by
  unfold cleanStrings at h
  obtain ⟨v, hv, hfv⟩ := List.mem_filterMap.mp h
  cases v with
  | jstr t =>
    dsimp only at hfv
    by_cases ht : pyStrip t = ""
    · rw [if_pos ht] at hfv
      cases hfv
    · rw [if_neg ht] at hfv
      have hts := Option.some.inj hfv
      subst hts
      exact ⟨ht, pyStrip_idem t⟩
  | jlist l => cases hfv
  | jdict e => cases hfv
  | jother => cases hfv

/-- Every string returned by the strict-parse stage is non-empty and
stripped. -/
theorem mem_extractStage1 {rawDecode : String → Option JVal}
    {txt key : String} {r : List String} {s : String}
    (hr : extractStage1 rawDecode txt key = some r) (hs : s ∈ r) :
    s ≠ "" ∧ pyStrip s = s := by
  unfold extractStage1 at hr
  split at hr
  · split at hr
    · have h2 := Option.some.inj hr
      subst h2
      exact mem_cleanStrings hs
    · cases hr
  · cases hr

/-- Every string returned by the regex fallback stage is non-empty and
stripped. -/
theorem mem_extractStage2 {regexSearch : String → Option String}
    {loads : String → Option JVal} {txt key : String} {s : String}
    (hs : s ∈ extractStage2 regexSearch loads txt key) :
    s ≠ "" ∧ pyStrip s = s := by
  unfold extractStage2 at hs
  repeat split at hs
  all_goals
    first
      | exact mem_cleanStrings hs
      | simp at hs

/-- C9: for every input text and key, and every behavior of the stdlib
decode/regex/loads stages, the scaffold-name parsing routine returns (it
is a total function — both stages' failures are caught), every element
of the result is a non-empty whitespace-stripped string (non-string list
entries are dropped), and on total parse failure (strict decode fails
and the regex finds no block) the result is the empty list. -/
theorem c9_extract_json_total (rawDecode : String → Option JVal)
    (regexSearch : String → Option String) (loads : String → Option JVal)
    (txt key : String) :
    (∀ s ∈ extract_json_list rawDecode regexSearch loads txt key,
      s ≠ "" ∧ pyStrip s = s) ∧
    (rawDecode txt = none → regexSearch txt = none →
      extract_json_list rawDecode regexSearch loads txt key = []) := by
  constructor
  · intro s hs
    unfold extract_json_list at hs
    cases h1 : extractStage1 rawDecode txt key with
    | some r =>
      rw [h1] at hs
      exact mem_extractStage1 h1 hs
    | none =>
      rw [h1] at hs
      exact mem_extractStage2 hs
  · intro h1 h2
    unfold extract_json_list extractStage1 extractStage2
    rw [h1, h2]

/-- Witness for C9: both stages fail on a concrete input. -/
theorem c9_witness : extract_json_list rdNone reNone ldNone "x" "k" = [] :=
  (c9_extract_json_total rdNone reNone ldNone "x" "k").2 rfl rfl
